import Mathlib

/-
Verification of the A-LUT (address lookup table) segment allocator and
register-programming protocol of the PLX87xx NTB driver
(src/node-drivers/base-driver/drivers/vca/plx87xx/plx_hw.c).

The register-programming facade (plx_add_a_lut_entry, plx_del_a_lut_entry,
plx_a_lut_clear, plx_get_a_lut_entry_offset), the reset debounce
(plx_card_reset) and the scratchpad boot-params address accessors
(plx_set_dp_addr / plx_get_dp_addr, via plx_write_spad / plx_read_spad)
are embedded directly from plx_hw.c.  The segment manager (plx_alm_*,
implemented in plx_alm.c which is not part of the sources) and the
chip-layout constants from plx_hw.h are modelled from the specification.

MMIO traffic is modelled as a trace of events (writes, reads, barriers)
in program order; machine integers are Nat with explicit truncation
(% 2^32) exactly where the C code performs a narrowing cast.
-/

/-- Trace event for one MMIO access or barrier, in program order. -/
inductive RegEvent where
  | write (value offset : Nat)
  | read (offset : Nat)
  | wmb
  | mb
deriving DecidableEq

/-- Modelled from the spec: hardware-layout constants fixed by the chip
(plx_hw.h, not under src/: PLX_A_LUT_MAX_ARRAY, PLX_A_LUT_ARRAY_OFFSET,
the three per-entry sub-array offsets and the permission enable bits),
together with the per-device fields `a_lut_array_base` and the
`a_lut_manager` geometry (`segment_size`, `segments_num`). -/
structure PlxEnv where
  maxArray : Nat
  arrayOffset : Nat
  permOff : Nat
  highOff : Nat
  lowOff : Nat
  readEn : Nat
  writeEn : Nat
  aLutArrayBase : Nat
  segment_size : Nat
  segments_num : Nat
deriving DecidableEq

/-- Modelled from the spec: one allocated run of the segment manager
(plx_alm.c, not under src/): starting segment index, number of contiguous
segments, the masked base address it maps, and its reference count. -/
structure AlmRun where
  start : Nat
  segs : Nat
  base : Nat
  ref : Nat
deriving DecidableEq

/-- Whether segment index `i` lies inside run `r`. -/
def AlmRun.covers (r : AlmRun) (i : Nat) : Bool :=
  decide (r.start ≤ i) && decide (i < r.start + r.segs)

/-- Modelled from the spec: the spec masks the requested address down to
segment granularity before resolving it to a run. -/
def maskedBase (ss addr : Nat) : Nat := addr / ss * ss

/-- Modelled from the spec: the number of contiguous segments the range
[addr, addr+size) spans once masked down to segment boundaries. -/
def segsSpanned (ss addr size : Nat) : Nat :=
  (addr % ss + size + (ss - 1)) / ss

/-- Modelled from the spec: look for an already-allocated run covering
exactly the masked range (same masked base, same span) and increment its
reference count, returning the updated run list and the run start. -/
def almFindExisting : List AlmRun → Nat → Nat → Option (List AlmRun × Nat)
  | [], _, _ => none
  | r :: rest, masked, need =>
    if r.base = masked ∧ r.segs = need then
      some ({ r with ref := r.ref + 1 } :: rest, r.start)
    else
      match almFindExisting rest masked need with
      | some (rest', s) => some (r :: rest', s)
      | none => none

/-- Whether a candidate run [s, s+need) is disjoint from run `r`. -/
def runDisjoint (s need : Nat) (r : AlmRun) : Bool :=
  decide (r.start + r.segs ≤ s) || decide (s + need ≤ r.start)

/-- Whether the candidate run [s, s+need) overlaps no allocated run. -/
def runFree (runs : List AlmRun) (s need : Nat) : Bool :=
  runs.all (runDisjoint s need)

/-- Modelled from the spec: first-fit search over index order for the
lowest start of a free contiguous run of `need` segments within
[0, sn). -/
def firstFit (runs : List AlmRun) (need sn : Nat) : Option Nat :=
  (List.range (sn + 1)).find? (fun s => decide (s + need ≤ sn) && runFree runs s need)

/-- The spec's single recoverable allocator failure: capacity exhausted. -/
inductive AlmErr where
  | noSpace
deriving DecidableEq

/-- Modelled from the spec: plx_alm_add_entry (plx_alm.c, not under src/).
Masks `addr` to segment granularity, computes the spanned segment count,
and either increments the reference count of an existing run covering
exactly that masked range (returning the already-exists flag `true`),
or allocates the first-fit free contiguous run with reference count 1,
or fails with noSpace.  Returns the (possibly updated) run list and,
on success, (already_exists, segment_id, segments_num). -/
def plx_alm_add_entry (ss sn : Nat) (runs : List AlmRun) (addr size : Nat) :
    List AlmRun × Except AlmErr (Bool × Nat × Nat) :=
  match almFindExisting runs (maskedBase ss addr) (segsSpanned ss addr size) with
  | some (runs', s) => (runs', Except.ok (true, s, segsSpanned ss addr size))
  | none =>
    match firstFit runs (segsSpanned ss addr size) sn with
    | some s =>
      (runs ++ [⟨s, segsSpanned ss addr size, maskedBase ss addr, 1⟩],
       Except.ok (false, s, segsSpanned ss addr size))
    | none => (runs, Except.error AlmErr.noSpace)

/-- Modelled from the spec: traversal for plx_alm_del_entry.  Finds the
run containing the segment id; decrements its reference count, removing
the run and reporting its full extent when the count reaches zero, and
reporting zero freed segments otherwise. -/
def almDelGo : List AlmRun → Nat → Option (List AlmRun × Nat × Nat)
  | [], _ => none
  | r :: rest, sid =>
    if r.covers sid then
      if r.ref ≤ 1 then some (rest, r.start, r.segs)
      else some ({ r with ref := r.ref - 1 } :: rest, r.start, 0)
    else
      match almDelGo rest sid with
      | some (rest', s, n) => some (r :: rest', s, n)
      | none => none

/-- Modelled from the spec: plx_alm_del_entry (plx_alm.c, not under src/).
Returns the updated run list, the start of the affected run, and the
number of segments actually freed (zero when still referenced or when no
run contains the segment id). -/
def plx_alm_del_entry (runs : List AlmRun) (sid : Nat) : List AlmRun × Nat × Nat :=
  match almDelGo runs sid with
  | some res => res
  | none => (runs, 0, 0)

/-- Embeds plx_get_a_lut_entry_offset (plx_hw.c:254):
`array_offset = (idx >= PLX_A_LUT_MAX_ARRAY) ? PLX_A_LUT_ARRAY_OFFSET : 0;
return array_offset + (idx % PLX_A_LUT_MAX_ARRAY) * sizeof(u32);`
with sizeof(u32) = 4. -/
def plx_get_a_lut_entry_offset (env : PlxEnv) (idx : Nat) : Nat :=
  (if idx ≥ env.maxArray then env.arrayOffset else 0) + (idx % env.maxArray) * 4

/-- Embeds the programming loop of plx_add_a_lut_entry (plx_hw.c:562-589),
run when the segment manager allocated a fresh run: for each segment,
in source order, write the high 32 bits of the masked address, write the
low 32 bits, issue wmb(), then write the permission field with read and
write enable; `addr_masked` advances by segment_size per iteration. -/
def programLoop (env : PlxEnv) : Nat → Nat → Nat → List RegEvent
  | _, 0, _ => []
  | i, c + 1, addr_masked =>
    let entry_offset := env.aLutArrayBase + plx_get_a_lut_entry_offset env i
    RegEvent.write ((addr_masked >>> 32) % 2 ^ 32) (entry_offset + env.highOff)
    :: RegEvent.write (addr_masked % 2 ^ 32) (entry_offset + env.lowOff)
    :: RegEvent.wmb
    :: RegEvent.write (env.readEn ||| env.writeEn) (entry_offset + env.permOff)
    :: programLoop env (i + 1) c (addr_masked + env.segment_size)

/-- Embeds the `last_permission_reg` bookkeeping of plx_add_a_lut_entry
(plx_hw.c:551,587): zero when the loop ran no iteration, otherwise the
permission-register offset of the last programmed segment. -/
def lastPermissionReg (env : PlxEnv) (segment_id count : Nat) : Nat :=
  match count with
  | 0 => 0
  | c + 1 =>
    env.aLutArrayBase + plx_get_a_lut_entry_offset env (segment_id + c) + env.permOff

/-- Embeds plx_add_a_lut_entry (plx_hw.c:536-616).  Delegates to the
segment manager; on a fresh allocation programs every segment of the run
(programLoop), then issues mb() and, when `last_permission_reg` is
nonzero, the dummy read-back; on the already-exists path programs
nothing.  In both success paths the returned translated address is
`segment_id * segment_size + (addr & translation_mask)`.  On failure it
returns with no register traffic and no translated address.
`addr & ~translation_mask` is taken at 64 bits: for segment_size ≥ 1,
~(segment_size - 1) = 2^64 - segment_size. -/
def plx_add_a_lut_entry (env : PlxEnv) (runs : List AlmRun) (addr size : Nat) :
    List AlmRun × Option Nat × List RegEvent :=
  let translation_mask := env.segment_size - 1
  let addr_masked := addr &&& (2 ^ 64 - env.segment_size)
  match plx_alm_add_entry env.segment_size env.segments_num runs addr size with
  | (runs', Except.ok (already, segment_id, segments_num)) =>
    let events :=
      if already then []
      else
        programLoop env segment_id segments_num addr_masked
        ++ [RegEvent.mb]
        ++ (if lastPermissionReg env segment_id segments_num ≠ 0 then
              [RegEvent.read (lastPermissionReg env segment_id segments_num)]
            else [])
    (runs', some (segment_id * env.segment_size + (addr &&& translation_mask)), events)
  | (_, Except.error _) => (runs, none, [])

/-- Embeds the clearing loop of plx_del_a_lut_entry (plx_hw.c:654-659):
write zero to the permission sub-field of each freed segment. -/
def clearPermLoop (env : PlxEnv) : Nat → Nat → List RegEvent
  | _, 0 => []
  | i, c + 1 =>
    RegEvent.write 0
      (env.aLutArrayBase + (plx_get_a_lut_entry_offset env i + env.permOff))
    :: clearPermLoop env (i + 1) c

/-- Embeds plx_del_a_lut_entry (plx_hw.c:629-663).  Computes the
containing segment id; returns untouched when the address is at or past
`segments_num * segment_size`; otherwise delegates to the segment
manager and writes zero to the permission register of every segment
actually freed. -/
def plx_del_a_lut_entry (env : PlxEnv) (runs : List AlmRun) (addr : Nat) :
    List AlmRun × List RegEvent :=
  let segment_id := addr / env.segment_size
  if addr ≥ env.segments_num * env.segment_size then (runs, [])
  else
    match plx_alm_del_entry runs segment_id with
    | (runs', start_segment, segments_num) =>
      if segments_num ≠ 0 then (runs', clearPermLoop env start_segment segments_num)
      else (runs', [])

/-- Embeds the loop of plx_a_lut_clear (plx_hw.c:276-286): for each
entry, write zero to the permission, higher-remap and lower-remap
sub-fields, in that order; `offset` is the A-LUT array base the caller
passes in. -/
def clearAllLoop (env : PlxEnv) (offset : Nat) : Nat → Nat → List RegEvent
  | _, 0 => []
  | i, c + 1 =>
    let entry_offset := plx_get_a_lut_entry_offset env i + offset
    RegEvent.write 0 (entry_offset + env.permOff)
    :: RegEvent.write 0 (entry_offset + env.highOff)
    :: RegEvent.write 0 (entry_offset + env.lowOff)
    :: clearAllLoop env offset (i + 1) c

/-- Embeds plx_a_lut_clear (plx_hw.c:268-287): resets the segment
manager bookkeeping (plx_alm_reset, modelled from the spec as clearing
all allocations) and zeroes all three sub-fields of every entry. -/
def plx_a_lut_clear (env : PlxEnv) (offset : Nat) (runs : List AlmRun) :
    List AlmRun × List RegEvent :=
  ([], clearAllLoop env offset 0 env.segments_num)

/-- Reset-debounce state of one node: the jiffies timestamp of the last
accepted reset (plx_device.reset_ts). -/
structure ResetState where
  reset_ts : Nat
deriving DecidableEq

/-- Embeds the debounce and pulse logic of plx_card_reset
(plx_hw.c:1085-1117) after the cpu-id and context validity checks.
`t0`, `t1`, `t2` are the three successive get_jiffies_64() reads;
`cardSupported` tells whether the card type is VCA_VV or VCA_MV.
Returns the final reset_ts state and whether the GPIO reset pulse was
driven (signal_bit).  A request with reset_ts ≤ t0 < reset_ts + grace
is rejected before any state change. -/
def plx_card_reset (grace : Nat) (st : ResetState) (t0 t1 t2 : Nat)
    (cardSupported : Bool) : ResetState × Bool :=
  if st.reset_ts ≤ t0 ∧ t0 < st.reset_ts + grace then (st, false)
  else
    let st' : ResetState := { reset_ts := t1 }
    if cardSupported then ({ reset_ts := t2 }, true) else (st', false)

/-- Embeds plx_write_spad (plx_hw.c:676-681): store the 32-bit value at
offset reg_base + PLX_SPAD0 + idx*4 in the MMIO window (modelled as a
map from offset to last value written). -/
def plx_write_spad (regBase spad0 : Nat) (mmio : Nat → Nat) (idx val : Nat) :
    Nat → Nat :=
  fun o => if o = regBase + spad0 + idx * 4 then val % 2 ^ 32 else mmio o

/-- Embeds plx_read_spad (plx_hw.c:692-700): read the 32-bit value at
offset reg_base + PLX_SPAD0 + idx*4. -/
def plx_read_spad (regBase spad0 : Nat) (mmio : Nat → Nat) (idx : Nat) : Nat :=
  mmio (regBase + spad0 + idx * 4)

/-- Embeds plx_set_dp_addr (plx_hw.c:1811-1816): write the low 32 bits
of dp_addr to the PLX_DPLO_SPAD scratchpad and the high 32 bits to the
PLX_DPHI_SPAD scratchpad. -/
def plx_set_dp_addr (regBase spad0 dplo dphi : Nat) (mmio : Nat → Nat)
    (dp_addr : Nat) : Nat → Nat :=
  plx_write_spad regBase spad0
    (plx_write_spad regBase spad0 mmio dplo dp_addr) dphi (dp_addr >>> 32)

/-- Embeds plx_get_dp_addr (plx_hw.c:1825-1833): read the two
scratchpads and reassemble `lo | (hi << 32)`. -/
def plx_get_dp_addr (regBase spad0 dplo dphi : Nat) (mmio : Nat → Nat) : Nat :=
  plx_read_spad regBase spad0 mmio dplo
  ||| (plx_read_spad regBase spad0 mmio dphi <<< 32)

/-- Well-formed allocator state: runs are pairwise disjoint, and every
run is non-empty, live (reference count at least 1) and within the
table bounds. -/
def AlmWF (sn : Nat) (runs : List AlmRun) : Prop :=
  List.Pairwise (fun a b => a.start + a.segs ≤ b.start ∨ b.start + b.segs ≤ a.start) runs
  ∧ ∀ r ∈ runs, 1 ≤ r.ref ∧ 1 ≤ r.segs ∧ r.start + r.segs ≤ sn

/-- C3: entry_offset is injective over [0, segments_num) — given the
chip facts that the two physical arrays do not overlap
(second-array base at or beyond the first array's 4*maxArray bytes) and
that the table fits in the two arrays — and realises the two-array
layout: indices below maxArray map into array 1 at index*4, indices at
or above maxArray map into array 2 at arrayOffset + (index % maxArray)*4. -/
theorem plx_entry_offset_injective_layout (env : PlxEnv)
    (hsn : env.segments_num ≤ 2 * env.maxArray)
    (hoff : 4 * env.maxArray ≤ env.arrayOffset) :
    (∀ i j, i < env.segments_num → j < env.segments_num →
      plx_get_a_lut_entry_offset env i = plx_get_a_lut_entry_offset env j → i = j)
    ∧ (∀ i, i < env.maxArray → plx_get_a_lut_entry_offset env i = i * 4)
    ∧ (∀ i, env.maxArray ≤ i →
        plx_get_a_lut_entry_offset env i = env.arrayOffset + (i % env.maxArray) * 4) := by
  have hlow : ∀ i, i < env.maxArray → plx_get_a_lut_entry_offset env i = i * 4 := by
    intro i hi
    unfold plx_get_a_lut_entry_offset
    rw [if_neg (by omega), Nat.mod_eq_of_lt hi, Nat.zero_add]
  have hhigh : ∀ i, env.maxArray ≤ i →
      plx_get_a_lut_entry_offset env i = env.arrayOffset + (i % env.maxArray) * 4 := by
    intro i hi
    unfold plx_get_a_lut_entry_offset
    rw [if_pos hi]
  refine ⟨?_, hlow, hhigh⟩
  intro i j hi hj heq
  have hmod : ∀ m, env.maxArray ≤ m → m < 2 * env.maxArray →
      m % env.maxArray = m - env.maxArray := by
    intro m h1 h2
    rw [Nat.mod_eq_sub_mod h1, Nat.mod_eq_of_lt (by omega)]
  rcases Nat.lt_or_ge i env.maxArray with hi2 | hi2 <;>
    rcases Nat.lt_or_ge j env.maxArray with hj2 | hj2
  · rw [hlow i hi2, hlow j hj2] at heq; omega
  · rw [hlow i hi2, hhigh j hj2] at heq
    generalize j % env.maxArray = m at heq
    omega
  · rw [hhigh i hi2, hlow j hj2] at heq
    generalize i % env.maxArray = m at heq
    omega
  · rw [hhigh i hi2, hhigh j hj2, hmod i hi2 (by omega), hmod j hj2 (by omega)] at heq
    omega

/-- Witness for C3: with maxArray = 2, arrayOffset = 8, segments_num = 4,
index 3 lands in the second array at 8 + (3 % 2) * 4 = 12. -/
theorem plx_entry_offset_injective_layout_witness :
    plx_get_a_lut_entry_offset ⟨2, 8, 0, 0, 0, 0, 0, 0, 4096, 4⟩ 3 = 8 + (3 % 2) * 4 :=
  (plx_entry_offset_injective_layout ⟨2, 8, 0, 0, 0, 0, 0, 0, 4096, 4⟩
    (by decide) (by decide)).2.2 3 (by decide)

/-- Helper: when the segment manager reports noSpace, it has not touched
the run list. -/
theorem plx_alm_add_entry_error_state (ss sn : Nat) (runs : List AlmRun)
    (addr size : Nat) (e : AlmErr)
    (h : (plx_alm_add_entry ss sn runs addr size).2 = Except.error e) :
    plx_alm_add_entry ss sn runs addr size = (runs, Except.error e) := by
  cases e
  unfold plx_alm_add_entry at h ⊢
  cases hfe : almFindExisting runs (maskedBase ss addr) (segsSpanned ss addr size) with
  | some p =>
    rcases p with ⟨runs', s⟩
    simp [hfe] at h
  | none =>
    cases hff : firstFit runs (segsSpanned ss addr size) sn with
    | some s => simp [hfe, hff] at h
    | none => simp [hfe, hff]

/-- C6: unmap with a translated address at or past
segments_num * segment_size (including exactly one past the end) returns
immediately: no delegation to the segment manager, no register write,
no allocator state change. -/
theorem plx_del_a_lut_entry_out_of_range (env : PlxEnv) (runs : List AlmRun)
    (addr : Nat) (h : env.segments_num * env.segment_size ≤ addr) :
    plx_del_a_lut_entry env runs addr = (runs, []) := by
  unfold plx_del_a_lut_entry
  rw [if_pos h]

/-- Witness for C6: with segments_num = 4 and segment_size = 4096, unmap
of the one-past-the-end address 16384 is a no-op. -/
theorem plx_del_a_lut_entry_out_of_range_witness :
    plx_del_a_lut_entry ⟨2, 8, 0, 0, 0, 0, 0, 0, 4096, 4⟩
      [⟨0, 1, 0, 1⟩] 16384 = ([⟨0, 1, 0, 1⟩], []) :=
  plx_del_a_lut_entry_out_of_range ⟨2, 8, 0, 0, 0, 0, 0, 0, 4096, 4⟩
    [⟨0, 1, 0, 1⟩] 16384 (by decide)

/-- C7: when the segment manager reports noSpace, map aborts, returns no
translated address, writes no hardware table entry register, and leaves
the allocator state unchanged. -/
theorem plx_add_a_lut_entry_nospace (env : PlxEnv) (runs : List AlmRun)
    (addr size : Nat)
    (h : (plx_alm_add_entry env.segment_size env.segments_num runs addr size).2
      = Except.error AlmErr.noSpace) :
    plx_add_a_lut_entry env runs addr size = (runs, none, []) := by
  unfold plx_add_a_lut_entry
  rw [plx_alm_add_entry_error_state _ _ _ _ _ _ h]

/-- Witness for C7: a one-segment table already fully allocated has no
free run for a fresh one-segment request, and map is a pure failure. -/
theorem plx_add_a_lut_entry_nospace_witness :
    plx_add_a_lut_entry ⟨2, 8, 0, 0, 0, 0, 0, 0, 4096, 1⟩
      [⟨0, 1, 0, 1⟩] 8192 16 = ([⟨0, 1, 0, 1⟩], none, []) :=
  plx_add_a_lut_entry_nospace ⟨2, 8, 0, 0, 0, 0, 0, 0, 4096, 1⟩
    [⟨0, 1, 0, 1⟩] 8192 16 rfl

/-- C9: a reset request arriving with reset_ts ≤ now < reset_ts + grace
is rejected — no GPIO reset pulse is driven and the stored timestamp is
not updated; an accepted request on a supported card drives the pulse
and records a fresh timestamp. -/
theorem plx_card_reset_debounce (grace : Nat) (st : ResetState)
    (t0 t1 t2 : Nat) (b : Bool) :
    (st.reset_ts ≤ t0 → t0 < st.reset_ts + grace →
      plx_card_reset grace st t0 t1 t2 b = (st, false))
    ∧ (¬(st.reset_ts ≤ t0 ∧ t0 < st.reset_ts + grace) → b = true →
      plx_card_reset grace st t0 t1 t2 b = (⟨t2⟩, true)) := by
  constructor
  · intro h1 h2
    unfold plx_card_reset
    rw [if_pos ⟨h1, h2⟩]
  · intro h hb
    unfold plx_card_reset
    rw [if_neg h]
    subst hb
    simp

/-- Witness for C9: with grace 100 and last timestamp 50, a request at
time 60 is rejected with the state untouched. -/
theorem plx_card_reset_debounce_witness :
    plx_card_reset 100 ⟨50⟩ 60 61 62 true = (⟨50⟩, false) :=
  (plx_card_reset_debounce 100 ⟨50⟩ 60 61 62 true).1 (by decide) (by decide)

/-- C10: writing a 64-bit boot-params address with plx_set_dp_addr and
reading it back with plx_get_dp_addr returns exactly the written value,
provided the two scratchpad registers are distinct and scratchpad reads
return the last value written. -/
theorem plx_dp_addr_roundtrip (regBase spad0 dplo dphi : Nat)
    (mmio : Nat → Nat) (v : Nat) (hne : dplo ≠ dphi) (hv : v < 2 ^ 64) :
    plx_get_dp_addr regBase spad0 dplo dphi
      (plx_set_dp_addr regBase spad0 dplo dphi mmio v) = v := by
  unfold plx_get_dp_addr plx_set_dp_addr plx_read_spad plx_write_spad
  have hne4 : ¬(regBase + spad0 + dplo * 4 = regBase + spad0 + dphi * 4) := by
    omega
  rw [if_neg hne4, if_pos rfl, if_pos rfl]
  apply Nat.eq_of_testBit_eq
  intro i
  simp only [Nat.testBit_lor, Nat.testBit_mod_two_pow, Nat.testBit_shiftLeft,
    Nat.testBit_shiftRight]
  by_cases h1 : i < 32
  · have h2 : ¬(i ≥ 32) := by omega
    simp [h1, h2]
  · have h2 : i ≥ 32 := by omega
    by_cases h3 : i < 64
    · have h4 : i - 32 < 32 := by omega
      have h5 : 32 + (i - 32) = i := by omega
      simp [h1, h2, h4, h5]
    · have h6 : v.testBit i = false :=
        Nat.testBit_lt_two_pow
          (lt_of_lt_of_le hv (Nat.pow_le_pow_right (by norm_num) (by omega)))
      have h4 : ¬(i - 32 < 32) := by omega
      simp [h1, h2, h4, h6]

/-- Witness for C10: a concrete 64-bit value survives the scratchpad
round trip. -/
theorem plx_dp_addr_roundtrip_witness :
    plx_get_dp_addr 0 0 0 1
      (plx_set_dp_addr 0 0 0 1 (fun _ => 0) 81985529216486895) = 81985529216486895 :=
  plx_dp_addr_roundtrip 0 0 0 1 (fun _ => 0) 81985529216486895
    (by decide) (by norm_num)

/-- Helper: a successful first-fit result is in bounds and overlaps no
allocated run. -/
theorem firstFit_some (runs : List AlmRun) (need sn s : Nat)
    (h : firstFit runs need sn = some s) :
    s + need ≤ sn ∧ runFree runs s need = true := by
  have hp := List.find?_some h
  rw [Bool.and_eq_true] at hp
  exact ⟨of_decide_eq_true hp.1, hp.2⟩

/-- Helper: a request of size at least 1 spans at least one segment. -/
theorem segsSpanned_pos (ss addr size : Nat) (hss : 1 ≤ ss) (hsize : 1 ≤ size) :
    1 ≤ segsSpanned ss addr size := by
  unfold segsSpanned
  exact (Nat.le_div_iff_mul_le hss).2 (by omega)

/-- Helper: the run reported by almFindExisting is a member of the
original list with matching masked base, span and start. -/
theorem almFindExisting_mem (runs : List AlmRun) (masked need : Nat)
    (runs' : List AlmRun) (s : Nat)
    (h : almFindExisting runs masked need = some (runs', s)) :
    ∃ t ∈ runs, t.start = s ∧ t.base = masked ∧ t.segs = need := by
  induction runs generalizing runs' with
  | nil => simp [almFindExisting] at h
  | cons q rest ih =>
    unfold almFindExisting at h
    by_cases hq : q.base = masked ∧ q.segs = need
    · rw [if_pos hq] at h
      injection h with h1
      injection h1 with h1a h1b
      exact ⟨q, List.mem_cons_self _ _, h1b, hq.1, hq.2⟩
    · rw [if_neg hq] at h
      cases hfe : almFindExisting rest masked need with
      | some p =>
        rcases p with ⟨rest', s'⟩
        rw [hfe] at h
        injection h with h1
        injection h1 with h1a h1b
        subst h1b
        obtain ⟨t, ht, h3⟩ := ih rest' hfe
        exact ⟨t, List.mem_cons_of_mem _ ht, h3⟩
      | none => rw [hfe] at h; exact absurd h (by simp)

/-- Helper: deleting at a yet-unallocated first-fit start pops exactly
the freshly appended run and restores the original list. -/
theorem almDelGo_append_fresh (runs : List AlmRun) (s need masked : Nat)
    (hfree : runFree runs s need = true) (hneed : 1 ≤ need) :
    almDelGo (runs ++ [⟨s, need, masked, 1⟩]) s = some (runs, s, need) := by
  induction runs with
  | nil =>
    simp only [List.nil_append]
    unfold almDelGo
    rw [if_pos (show (AlmRun.mk s need masked 1).covers s = true by
      simp [AlmRun.covers]; omega)]
    rw [if_pos (show (AlmRun.mk s need masked 1).ref ≤ 1 by simp)]
  | cons q rest ih =>
    unfold runFree at hfree
    rw [List.all_cons, Bool.and_eq_true] at hfree
    have hqdis := hfree.1
    rw [runDisjoint, Bool.or_eq_true, decide_eq_true_eq, decide_eq_true_eq] at hqdis
    have hnc : ¬(q.covers s = true) := by
      simp [AlmRun.covers]
      omega
    show almDelGo (q :: (rest ++ [⟨s, need, masked, 1⟩])) s = _
    unfold almDelGo
    rw [if_neg hnc]
    rw [ih hfree.2]

/-- Helper: after almFindExisting incremented a run, deleting at the
returned start decrements that same run back, frees nothing, and
restores the original list.  Requires pairwise-disjoint, live,
non-empty runs. -/
theorem almDelGo_after_inc (runs : List AlmRun) (masked need : Nat)
    (runs' : List AlmRun) (s : Nat)
    (hdisj : List.Pairwise
      (fun a b => a.start + a.segs ≤ b.start ∨ b.start + b.segs ≤ a.start) runs)
    (hmem : ∀ q ∈ runs, 1 ≤ q.ref ∧ 1 ≤ q.segs)
    (h : almFindExisting runs masked need = some (runs', s)) :
    almDelGo runs' s = some (runs, s, 0) := by
  induction runs generalizing runs' with
  | nil => simp [almFindExisting] at h
  | cons q rest ih =>
    rw [List.pairwise_cons] at hdisj
    have hqref := (hmem q (List.mem_cons_self _ _)).1
    have hqsegs := (hmem q (List.mem_cons_self _ _)).2
    unfold almFindExisting at h
    by_cases hq : q.base = masked ∧ q.segs = need
    · rw [if_pos hq] at h
      injection h with h1
      injection h1 with h1a h1b
      subst h1a
      subst h1b
      unfold almDelGo
      rw [if_pos (show ({ q with ref := q.ref + 1 } : AlmRun).covers q.start = true by
        simp [AlmRun.covers]; omega)]
      rw [if_neg (show ¬(({ q with ref := q.ref + 1 } : AlmRun).ref ≤ 1) by
        simp; omega)]
      simp
    · rw [if_neg hq] at h
      cases hfe : almFindExisting rest masked need with
      | some p =>
        rcases p with ⟨rest', s'⟩
        rw [hfe] at h
        injection h with h1
        injection h1 with h1a h1b
        subst h1a
        rw [h1b] at hfe
        obtain ⟨t, ht, hts, _, htn⟩ :=
          almFindExisting_mem rest masked need rest' s hfe
        have htsegs := (hmem t (List.mem_cons_of_mem _ ht)).2
        have hqt := hdisj.1 t ht
        have hnc : ¬(q.covers s = true) := by
          simp [AlmRun.covers]
          omega
        unfold almDelGo
        rw [if_neg hnc]
        rw [ih rest' hdisj.2 (fun x hx => hmem x (List.mem_cons_of_mem _ hx)) hfe]
      | none => rw [hfe] at h; exact absurd h (by simp)

/-- Helper: deleting inside a run of a pairwise-disjoint list decrements
it when still multiply referenced and removes it when the count is 1,
reporting the freed extent. -/
theorem almDelGo_found (runs : List AlmRun) (sid : Nat) (r : AlmRun)
    (hdisj : List.Pairwise
      (fun a b => a.start + a.segs ≤ b.start ∨ b.start + b.segs ≤ a.start) runs)
    (hr : r ∈ runs) (hcov : r.covers sid = true) :
    (2 ≤ r.ref → ∃ runs', almDelGo runs sid = some (runs', r.start, 0))
    ∧ (r.ref = 1 → ∃ runs', almDelGo runs sid = some (runs', r.start, r.segs)) := by
  have hcovP : r.start ≤ sid ∧ sid < r.start + r.segs := by
    simpa [AlmRun.covers] using hcov
  induction runs with
  | nil => simp at hr
  | cons q rest ih =>
    rw [List.pairwise_cons] at hdisj
    rcases List.mem_cons.1 hr with hqr | hrest
    · subst hqr
      constructor
      · intro href
        refine ⟨{ r with ref := r.ref - 1 } :: rest, ?_⟩
        unfold almDelGo
        rw [if_pos hcov]
        rw [if_neg (show ¬(r.ref ≤ 1) by omega)]
      · intro href
        refine ⟨rest, ?_⟩
        unfold almDelGo
        rw [if_pos hcov]
        rw [if_pos (show r.ref ≤ 1 by omega)]
    · have hqr := hdisj.1 r hrest
      have hnc : ¬(q.covers sid = true) := by
        simp [AlmRun.covers]
        omega
      obtain ⟨ih1, ih2⟩ := ih hdisj.2 hrest
      constructor
      · intro href
        obtain ⟨rest', hgo⟩ := ih1 href
        refine ⟨q :: rest', ?_⟩
        unfold almDelGo
        rw [if_neg hnc]
        rw [hgo]
      · intro href
        obtain ⟨rest', hgo⟩ := ih2 href
        refine ⟨q :: rest', ?_⟩
        unfold almDelGo
        rw [if_neg hnc]
        rw [hgo]

/-- C8: while a run's reference count is above 1, del writes no hardware
register at all; on the del call that takes the count from 1 to 0, the
permission registers of exactly the run's segments are written. -/
theorem plx_del_a_lut_entry_refcount (env : PlxEnv) (runs : List AlmRun)
    (addr : Nat) (r : AlmRun)
    (hWF : AlmWF env.segments_num runs) (hss : 1 ≤ env.segment_size)
    (hr : r ∈ runs) (hcov : r.covers (addr / env.segment_size) = true) :
    (2 ≤ r.ref → (plx_del_a_lut_entry env runs addr).2 = [])
    ∧ (r.ref = 1 → (plx_del_a_lut_entry env runs addr).2
        = clearPermLoop env r.start r.segs) := by
  obtain ⟨hdisj, hmem⟩ := hWF
  have hcovP : r.start ≤ addr / env.segment_size
      ∧ addr / env.segment_size < r.start + r.segs := by
    simpa [AlmRun.covers] using hcov
  have hbound := (hmem r hr).2.2
  have hsegs := (hmem r hr).2.1
  have hlt : addr < env.segments_num * env.segment_size := by
    have h1 : addr / env.segment_size < env.segments_num := by omega
    exact (Nat.div_lt_iff_lt_mul (by omega)).1 h1
  obtain ⟨hbusy, hlast⟩ :=
    almDelGo_found runs (addr / env.segment_size) r hdisj hr hcov
  constructor
  · intro href
    obtain ⟨runs', hgo⟩ := hbusy href
    unfold plx_del_a_lut_entry plx_alm_del_entry
    rw [if_neg (show ¬(addr ≥ env.segments_num * env.segment_size) by omega)]
    rw [hgo]
    simp
  · intro href
    obtain ⟨runs', hgo⟩ := hlast href
    unfold plx_del_a_lut_entry plx_alm_del_entry
    rw [if_neg (show ¬(addr ≥ env.segments_num * env.segment_size) by omega)]
    rw [hgo]
    show (if r.segs ≠ 0 then (runs', clearPermLoop env r.start r.segs)
      else (runs', [])).2 = clearPermLoop env r.start r.segs
    rw [if_pos (show r.segs ≠ 0 by omega)]

/-- Witness for C8: a doubly-referenced two-segment run at segments 1-2
is not cleared by a del at address 0x1800. -/
theorem plx_del_a_lut_entry_refcount_witness :
    (plx_del_a_lut_entry ⟨2, 8, 8, 4, 0, 1, 2, 0, 4096, 4⟩
      [⟨1, 2, 4096, 2⟩] 6144).2 = [] :=
  (plx_del_a_lut_entry_refcount ⟨2, 8, 8, 4, 0, 1, 2, 0, 4096, 4⟩
    [⟨1, 2, 4096, 2⟩] 6144 ⟨1, 2, 4096, 2⟩
    ⟨by simp, by simp⟩ (by decide) (by decide) (by decide)).1 (by decide)

/-- Helper: evaluation of map on the already-exists path. -/
theorem plx_add_eq_exists (env : PlxEnv) (runs : List AlmRun) (addr size : Nat)
    (runs' : List AlmRun) (s : Nat)
    (hfe : almFindExisting runs (maskedBase env.segment_size addr)
      (segsSpanned env.segment_size addr size) = some (runs', s)) :
    plx_add_a_lut_entry env runs addr size
      = (runs', some (s * env.segment_size + (addr &&& (env.segment_size - 1))), []) := by
  unfold plx_add_a_lut_entry plx_alm_add_entry
  rw [hfe]
  rfl

/-- Helper: evaluation of map on the fresh-allocation path. -/
theorem plx_add_eq_fresh (env : PlxEnv) (runs : List AlmRun) (addr size s : Nat)
    (hfe : almFindExisting runs (maskedBase env.segment_size addr)
      (segsSpanned env.segment_size addr size) = none)
    (hff : firstFit runs (segsSpanned env.segment_size addr size)
      env.segments_num = some s) :
    plx_add_a_lut_entry env runs addr size
      = (runs ++ [⟨s, segsSpanned env.segment_size addr size,
          maskedBase env.segment_size addr, 1⟩],
         some (s * env.segment_size + (addr &&& (env.segment_size - 1))),
         programLoop env s (segsSpanned env.segment_size addr size)
           (addr &&& (2 ^ 64 - env.segment_size))
         ++ [RegEvent.mb]
         ++ (if lastPermissionReg env s (segsSpanned env.segment_size addr size) ≠ 0
             then [RegEvent.read
               (lastPermissionReg env s (segsSpanned env.segment_size addr size))]
             else [])) := by
  unfold plx_add_a_lut_entry plx_alm_add_entry
  rw [hfe, hff]
  rfl

/-- Helper: evaluation of map when the allocator has no space. -/
theorem plx_add_eq_none (env : PlxEnv) (runs : List AlmRun) (addr size : Nat)
    (hfe : almFindExisting runs (maskedBase env.segment_size addr)
      (segsSpanned env.segment_size addr size) = none)
    (hff : firstFit runs (segsSpanned env.segment_size addr size)
      env.segments_num = none) :
    plx_add_a_lut_entry env runs addr size = (runs, none, []) := by
  unfold plx_add_a_lut_entry plx_alm_add_entry
  rw [hfe, hff]

/-- Helper: evaluation of unmap on an in-range address. -/
theorem plx_del_eq (env : PlxEnv) (runs : List AlmRun) (addr : Nat)
    (runs' : List AlmRun) (st n : Nat)
    (hlt : addr < env.segments_num * env.segment_size)
    (hgo : almDelGo runs (addr / env.segment_size) = some (runs', st, n)) :
    plx_del_a_lut_entry env runs addr
      = (runs', if n ≠ 0 then clearPermLoop env st n else []) := by
  unfold plx_del_a_lut_entry plx_alm_del_entry
  rw [if_neg (show ¬(addr ≥ env.segments_num * env.segment_size) by omega)]
  rw [hgo]
  show (if n ≠ 0 then (runs', clearPermLoop env st n) else (runs', []))
      = (runs', if n ≠ 0 then clearPermLoop env st n else [])
  by_cases hn : n ≠ 0
  · rw [if_pos hn, if_pos hn]
  · rw [if_neg hn, if_neg hn]

/-- C1: for a valid request from a well-formed allocator state, map
followed immediately by unmap of the returned translated address
restores the segment manager's free/allocated bookkeeping exactly. -/
theorem plx_map_unmap_roundtrip (env : PlxEnv) (runs : List AlmRun)
    (addr size t : Nat)
    (hWF : AlmWF env.segments_num runs) (hss : 1 ≤ env.segment_size)
    (hsize : 1 ≤ size)
    (h : (plx_add_a_lut_entry env runs addr size).2.1 = some t) :
    (plx_del_a_lut_entry env (plx_add_a_lut_entry env runs addr size).1 t).1
      = runs := by
  obtain ⟨hdisj, hmem⟩ := hWF
  have hofflt : (addr &&& (env.segment_size - 1)) < env.segment_size :=
    lt_of_le_of_lt Nat.and_le_right (by omega)
  have hdiv : ∀ s : Nat,
      (s * env.segment_size + (addr &&& (env.segment_size - 1)))
        / env.segment_size = s := by
    intro s
    rw [Nat.add_comm,
      Nat.add_mul_div_right _ _ (show 0 < env.segment_size by omega),
      Nat.div_eq_of_lt hofflt]
    omega
  cases hfe : almFindExisting runs (maskedBase env.segment_size addr)
      (segsSpanned env.segment_size addr size) with
  | some p =>
    rcases p with ⟨runs', s⟩
    rw [plx_add_eq_exists env runs addr size runs' s hfe] at h ⊢
    simp only [Option.some.injEq] at h
    subst h
    obtain ⟨q, hq, hqs, hqb, hqn⟩ := almFindExisting_mem _ _ _ _ _ hfe
    have hqm := hmem q hq
    have hgo := almDelGo_after_inc runs _ _ runs' s hdisj
      (fun x hx => ⟨(hmem x hx).1, (hmem x hx).2.1⟩) hfe
    have hgo2 : almDelGo runs'
        ((s * env.segment_size + (addr &&& (env.segment_size - 1)))
          / env.segment_size) = some (runs, s, 0) := by
      rw [hdiv]; exact hgo
    have hrange : s * env.segment_size + (addr &&& (env.segment_size - 1))
        < env.segments_num * env.segment_size := by
      have h1 : s + 1 ≤ env.segments_num := by omega
      calc s * env.segment_size + (addr &&& (env.segment_size - 1))
          < (s + 1) * env.segment_size := by rw [Nat.succ_mul]; omega
        _ ≤ env.segments_num * env.segment_size := Nat.mul_le_mul_right _ h1
    rw [plx_del_eq env runs' _ runs s 0 hrange hgo2]
  | none =>
    cases hff : firstFit runs (segsSpanned env.segment_size addr size)
        env.segments_num with
    | none =>
      rw [plx_add_eq_none env runs addr size hfe hff] at h
      simp at h
    | some s =>
      rw [plx_add_eq_fresh env runs addr size s hfe hff] at h ⊢
      simp only [Option.some.injEq] at h
      subst h
      obtain ⟨hle, hfree⟩ := firstFit_some _ _ _ _ hff
      have hneed := segsSpanned_pos env.segment_size addr size hss hsize
      have hgo := almDelGo_append_fresh runs s
        (segsSpanned env.segment_size addr size)
        (maskedBase env.segment_size addr) hfree hneed
      have hgo2 : almDelGo
          (runs ++ [⟨s, segsSpanned env.segment_size addr size,
            maskedBase env.segment_size addr, 1⟩])
          ((s * env.segment_size + (addr &&& (env.segment_size - 1)))
            / env.segment_size)
          = some (runs, s, segsSpanned env.segment_size addr size) := by
        rw [hdiv]; exact hgo
      have hrange : s * env.segment_size + (addr &&& (env.segment_size - 1))
          < env.segments_num * env.segment_size := by
        have h1 : s + 1 ≤ env.segments_num := by omega
        calc s * env.segment_size + (addr &&& (env.segment_size - 1))
            < (s + 1) * env.segment_size := by rw [Nat.succ_mul]; omega
          _ ≤ env.segments_num * env.segment_size := Nat.mul_le_mul_right _ h1
      rw [plx_del_eq env _ _ runs s (segsSpanned env.segment_size addr size)
        hrange hgo2]

/-- Witness for C1: mapping [0x1800, 0x2100) on an empty four-segment
manager allocates segments 0-1 and returns 0x800; unmapping 0x800
restores the empty state. -/
theorem plx_map_unmap_roundtrip_witness :
    (plx_del_a_lut_entry ⟨2, 8, 8, 4, 0, 1, 2, 0, 4096, 4⟩
      ((plx_add_a_lut_entry ⟨2, 8, 8, 4, 0, 1, 2, 0, 4096, 4⟩ [] 6144 2304).1)
      2048).1 = [] :=
  plx_map_unmap_roundtrip ⟨2, 8, 8, 4, 0, 1, 2, 0, 4096, 4⟩ [] 6144 2304 2048
    ⟨List.Pairwise.nil, by simp⟩ (by decide) (by decide) (by decide)

/-- Helper: after almFindExisting succeeded, a repeat lookup with the
same masked range still succeeds with the same start. -/
theorem almFindExisting_inc (runs : List AlmRun) (masked need : Nat)
    (runs' : List AlmRun) (s : Nat)
    (h : almFindExisting runs masked need = some (runs', s)) :
    ∃ runs'', almFindExisting runs' masked need = some (runs'', s) := by
  induction runs generalizing runs' with
  | nil => simp [almFindExisting] at h
  | cons q rest ih =>
    unfold almFindExisting at h
    by_cases hq : q.base = masked ∧ q.segs = need
    · rw [if_pos hq] at h
      injection h with h1
      injection h1 with h1a h1b
      subst h1a
      subst h1b
      refine ⟨{ q with ref := q.ref + 1 + 1 } :: rest, ?_⟩
      unfold almFindExisting
      rw [if_pos hq]
    · rw [if_neg hq] at h
      cases hfe : almFindExisting rest masked need with
      | some p =>
        rcases p with ⟨rest', s'⟩
        rw [hfe] at h
        injection h with h1
        injection h1 with h1a h1b
        subst h1a
        rw [h1b] at hfe
        obtain ⟨rest'', hfe2⟩ := ih rest' hfe
        refine ⟨q :: rest'', ?_⟩
        unfold almFindExisting
        rw [if_neg hq, hfe2]
      | none => rw [hfe] at h; exact absurd h (by simp)

/-- Helper: appending a fresh run for a range not yet present makes a
repeat lookup of that range find it at the same start. -/
theorem almFindExisting_append (runs : List AlmRun) (masked need s ref : Nat)
    (hfe : almFindExisting runs masked need = none) :
    almFindExisting (runs ++ [⟨s, need, masked, ref⟩]) masked need
      = some (runs ++ [⟨s, need, masked, ref + 1⟩], s) := by
  induction runs with
  | nil =>
    simp only [List.nil_append]
    unfold almFindExisting
    rw [if_pos ⟨rfl, rfl⟩]
  | cons q rest ih =>
    rw [List.cons_append]
    unfold almFindExisting at hfe
    simp only [almFindExisting]
    by_cases hq : q.base = masked ∧ q.segs = need
    · rw [if_pos hq] at hfe; exact absurd hfe (by simp)
    · rw [if_neg hq] at hfe ⊢
      cases hrest : almFindExisting rest masked need with
      | some p => rw [hrest] at hfe; simp at hfe
      | none => rw [ih hrest]; rfl

/-- C2: every successful map (fresh or already-mapped) returns the
translated address segment_id * segment_size + (addr mod segment_size)
— for the power-of-two segment_size the hardware derives — and a second
map call with the same addr whose range spans the same masked segment
run returns the identical translated address. -/
theorem plx_map_translated_address (env : PlxEnv) (runs : List AlmRun)
    (addr size size2 t k : Nat)
    (hss : env.segment_size = 2 ^ k)
    (hneed : segsSpanned env.segment_size addr size
      = segsSpanned env.segment_size addr size2)
    (h : (plx_add_a_lut_entry env runs addr size).2.1 = some t) :
    (∃ already sid n,
      (plx_alm_add_entry env.segment_size env.segments_num runs addr size).2
        = Except.ok (already, sid, n)
      ∧ t = sid * env.segment_size + addr % env.segment_size)
    ∧ (plx_add_a_lut_entry env
        (plx_add_a_lut_entry env runs addr size).1 addr size2).2.1 = some t := by
  have hmod : addr &&& (env.segment_size - 1) = addr % env.segment_size := by
    rw [hss]
    exact Nat.and_pow_two_sub_one_eq_mod addr k
  cases hfe : almFindExisting runs (maskedBase env.segment_size addr)
      (segsSpanned env.segment_size addr size) with
  | some p =>
    rcases p with ⟨runs', s⟩
    rw [plx_add_eq_exists env runs addr size runs' s hfe] at h ⊢
    simp only [Option.some.injEq] at h
    constructor
    · refine ⟨true, s, segsSpanned env.segment_size addr size, ?_, ?_⟩
      · unfold plx_alm_add_entry
        rw [hfe]
      · rw [← h, hmod]
    · obtain ⟨runs'', hfe2⟩ := almFindExisting_inc runs _ _ runs' s hfe
      rw [hneed] at hfe2
      rw [plx_add_eq_exists env runs' addr size2 runs'' s hfe2]
      show some (s * env.segment_size + (addr &&& (env.segment_size - 1))) = some t
      rw [h]
  | none =>
    cases hff : firstFit runs (segsSpanned env.segment_size addr size)
        env.segments_num with
    | none =>
      rw [plx_add_eq_none env runs addr size hfe hff] at h
      simp at h
    | some s =>
      rw [plx_add_eq_fresh env runs addr size s hfe hff] at h ⊢
      simp only [Option.some.injEq] at h
      constructor
      · refine ⟨false, s, segsSpanned env.segment_size addr size, ?_, ?_⟩
        · unfold plx_alm_add_entry
          rw [hfe, hff]
        · rw [← h, hmod]
      · have hfe2 := almFindExisting_append runs
          (maskedBase env.segment_size addr)
          (segsSpanned env.segment_size addr size) s 1 hfe
        rw [hneed] at hfe2
        rw [hneed]
        rw [plx_add_eq_exists env _ addr size2 _ s hfe2]
        show some (s * env.segment_size + (addr &&& (env.segment_size - 1))) = some t
        rw [h]

/-- Witness for C2: a second map of 0x1800 with a size spanning the same
two segments returns the same translated address 0x800. -/
theorem plx_map_translated_address_witness :
    (plx_add_a_lut_entry ⟨2, 8, 8, 4, 0, 1, 2, 0, 4096, 4⟩
      ((plx_add_a_lut_entry ⟨2, 8, 8, 4, 0, 1, 2, 0, 4096, 4⟩ [] 6144 2304).1)
      6144 2100).2.1 = some 2048 :=
  (plx_map_translated_address ⟨2, 8, 8, 4, 0, 1, 2, 0, 4096, 4⟩ [] 6144 2304
    2100 2048 12 (by decide) (by decide) (by decide)).2

/-- One per-segment block of the programming trace, as the code emits
it: high write, low write, write barrier, permission write. -/
def progBlock (env : PlxEnv) (i am : Nat) : List RegEvent :=
  [RegEvent.write ((am >>> 32) % 2 ^ 32)
     (env.aLutArrayBase + plx_get_a_lut_entry_offset env i + env.highOff),
   RegEvent.write (am % 2 ^ 32)
     (env.aLutArrayBase + plx_get_a_lut_entry_offset env i + env.lowOff),
   RegEvent.wmb,
   RegEvent.write (env.readEn ||| env.writeEn)
     (env.aLutArrayBase + plx_get_a_lut_entry_offset env i + env.permOff)]

/-- The register sequence claim C4 asserts, written from the claim's
words for comparison with the code's actual trace: per segment the high
write, then the write barrier, then the low write, then the permission
write; after the run, the full barrier and the read-back. -/
def claimedProgramLoop (env : PlxEnv) : Nat → Nat → Nat → List RegEvent
  | _, 0, _ => []
  | i, c + 1, addr_masked =>
    RegEvent.write ((addr_masked >>> 32) % 2 ^ 32)
      (env.aLutArrayBase + plx_get_a_lut_entry_offset env i + env.highOff)
    :: RegEvent.wmb
    :: RegEvent.write (addr_masked % 2 ^ 32)
      (env.aLutArrayBase + plx_get_a_lut_entry_offset env i + env.lowOff)
    :: RegEvent.write (env.readEn ||| env.writeEn)
      (env.aLutArrayBase + plx_get_a_lut_entry_offset env i + env.permOff)
    :: claimedProgramLoop env (i + 1) c (addr_masked + env.segment_size)

/-- The full per-operation trace claim C4 asserts. -/
def claimedMapTrace (env : PlxEnv) (segment_id count masked : Nat) : List RegEvent :=
  claimedProgramLoop env segment_id count masked
  ++ [RegEvent.mb]
  ++ [RegEvent.read (lastPermissionReg env segment_id count)]

/-- The register trace map actually emits for a freshly allocated run,
in closed form over segment indices. -/
def mapProgramTrace (env : PlxEnv) (segment_id count masked : Nat) : List RegEvent :=
  ((List.range count).map (fun j =>
    progBlock env (segment_id + j) (masked + j * env.segment_size))).flatten
  ++ [RegEvent.mb]
  ++ (if lastPermissionReg env segment_id count ≠ 0 then
        [RegEvent.read (lastPermissionReg env segment_id count)]
      else [])

/-- Helper: unrolling equation of the programming loop. -/
theorem programLoop_cons (env : PlxEnv) (i c m : Nat) :
    programLoop env i (c + 1) m
      = progBlock env i m ++ programLoop env (i + 1) c (m + env.segment_size) := rfl

/-- Helper: the programming loop equals its closed form. -/
theorem programLoop_eq_closed (env : PlxEnv) :
    ∀ c i m, programLoop env i c m
      = ((List.range c).map (fun j =>
          progBlock env (i + j) (m + j * env.segment_size))).flatten := by
  intro c
  induction c with
  | zero => intro i m; rfl
  | succ c ih =>
    intro i m
    rw [programLoop_cons, ih (i + 1) (m + env.segment_size),
      List.range_succ_eq_map, List.map_cons, List.flatten_cons, List.map_map]
    congr 1
    · simp
    · congr 1
      apply List.map_congr_left
      intro j _
      simp only [Function.comp_apply]
      have h1 : i + (j + 1) = i + 1 + j := by omega
      have h2 : m + (j + 1) * env.segment_size
          = m + env.segment_size + j * env.segment_size := by
        rw [Nat.succ_mul]
        omega
      simp only [Nat.succ_eq_add_one]
      rw [← h1, ← h2]

/-- Counterexample to C4 as stated: for a fresh two-segment map the
emitted trace is not the claimed one — the write barrier sits after the
low write, not between the high and low writes. -/
theorem plx_map_program_sequence_counterexample :
    (plx_add_a_lut_entry ⟨2, 8, 8, 4, 0, 1, 2, 0, 4096, 4⟩ [] 6144 2304).2.2
      ≠ claimedMapTrace ⟨2, 8, 8, 4, 0, 1, 2, 0, 4096, 4⟩ 0 2
          (6144 &&& (2 ^ 64 - 4096)) := by decide

/-- C4 (amended): for every freshly programmed run the per-segment
sequence is high 32 bits, low 32 bits, write barrier, then the
permission write with read and write enable; after the whole run a full
barrier is issued, followed by the dummy read-back of the last-written
permission register whenever that register offset is nonzero. -/
theorem plx_map_program_sequence (env : PlxEnv) (runs : List AlmRun)
    (addr size s : Nat)
    (hfe : almFindExisting runs (maskedBase env.segment_size addr)
      (segsSpanned env.segment_size addr size) = none)
    (hff : firstFit runs (segsSpanned env.segment_size addr size)
      env.segments_num = some s) :
    (plx_add_a_lut_entry env runs addr size).2.2
      = mapProgramTrace env s (segsSpanned env.segment_size addr size)
          (addr &&& (2 ^ 64 - env.segment_size)) := by
  rw [plx_add_eq_fresh env runs addr size s hfe hff]
  unfold mapProgramTrace
  rw [programLoop_eq_closed]

/-- Witness for C4: the concrete two-segment fresh map emits exactly the
amended closed-form trace. -/
theorem plx_map_program_sequence_witness :
    (plx_add_a_lut_entry ⟨2, 8, 8, 4, 0, 1, 2, 0, 4096, 4⟩ [] 6144 2304).2.2
      = mapProgramTrace ⟨2, 8, 8, 4, 0, 1, 2, 0, 4096, 4⟩ 0 2
          (6144 &&& (2 ^ 64 - 4096)) :=
  plx_map_program_sequence ⟨2, 8, 8, 4, 0, 1, 2, 0, 4096, 4⟩ [] 6144 2304 0
    rfl rfl

/-- The trace claim C5 asserts for clear_all, written from the claim's
words for comparison: one zero write to the permission sub-field only,
per entry. -/
def claimedClearAllLoop (env : PlxEnv) (offset : Nat) : Nat → Nat → List RegEvent
  | _, 0 => []
  | i, c + 1 =>
    RegEvent.write 0 (plx_get_a_lut_entry_offset env i + offset + env.permOff)
    :: claimedClearAllLoop env offset (i + 1) c

/-- One per-entry block of the clear-all trace, as the code emits it:
zero writes to permission, higher remap and lower remap. -/
def clearBlock (env : PlxEnv) (offset i : Nat) : List RegEvent :=
  [RegEvent.write 0 (plx_get_a_lut_entry_offset env i + offset + env.permOff),
   RegEvent.write 0 (plx_get_a_lut_entry_offset env i + offset + env.highOff),
   RegEvent.write 0 (plx_get_a_lut_entry_offset env i + offset + env.lowOff)]

/-- The trace clear_all actually emits, in closed form over entry
indices. -/
def clearAllTraceSpec (env : PlxEnv) (offset : Nat) : List RegEvent :=
  ((List.range env.segments_num).map (clearBlock env offset)).flatten

/-- Helper: unrolling equation of the clear-all loop. -/
theorem clearAllLoop_cons (env : PlxEnv) (offset i c : Nat) :
    clearAllLoop env offset i (c + 1)
      = clearBlock env offset i ++ clearAllLoop env offset (i + 1) c := rfl

/-- Helper: the clear-all loop equals its closed form. -/
theorem clearAllLoop_eq_closed (env : PlxEnv) (offset : Nat) :
    ∀ c i, clearAllLoop env offset i c
      = ((List.range c).map (fun j => clearBlock env offset (i + j))).flatten := by
  intro c
  induction c with
  | zero => intro i; rfl
  | succ c ih =>
    intro i
    rw [clearAllLoop_cons, ih (i + 1),
      List.range_succ_eq_map, List.map_cons, List.flatten_cons, List.map_map]
    congr 1
    congr 1
    apply List.map_congr_left
    intro j _
    simp only [Function.comp_apply, Nat.succ_eq_add_one]
    rw [(by omega : i + 1 + j = i + (j + 1))]

/-- Helper: every event the del-path clearing loop emits is a zero write
to some entry's permission sub-field. -/
theorem clearPermLoop_mem (env : PlxEnv) :
    ∀ c i e, e ∈ clearPermLoop env i c →
      ∃ j, e = RegEvent.write 0
        (env.aLutArrayBase + (plx_get_a_lut_entry_offset env j + env.permOff)) := by
  intro c
  induction c with
  | zero => intro i e he; simp [clearPermLoop] at he
  | succ c ih =>
    intro i e he
    rw [show clearPermLoop env i (c + 1)
        = RegEvent.write 0
            (env.aLutArrayBase + (plx_get_a_lut_entry_offset env i + env.permOff))
          :: clearPermLoop env (i + 1) c from rfl, List.mem_cons] at he
    rcases he with he | he
    · exact ⟨i, he⟩
    · exact ih (i + 1) e he

/-- Counterexample to C5 as stated: clear_all does not write only the
permission sub-fields — with four entries its trace is not the
permission-only sequence (it zeroes the remap sub-fields too). -/
theorem plx_a_lut_clear_counterexample :
    (plx_a_lut_clear ⟨2, 8, 8, 4, 0, 1, 2, 0, 4096, 4⟩ 0 []).2
      ≠ claimedClearAllLoop ⟨2, 8, 8, 4, 0, 1, 2, 0, 4096, 4⟩ 0 0 4 := by decide

/-- C5 (amended): the del-path clear writes zero only to permission
sub-fields, while clear_all resets the bookkeeping and writes zero to
the permission, higher-remap and lower-remap sub-fields of every
entry, in that per-entry order. -/
theorem plx_clear_permission_only (env : PlxEnv) (offset : Nat)
    (runs runs2 : List AlmRun) (addr : Nat) :
    plx_a_lut_clear env offset runs = ([], clearAllTraceSpec env offset)
    ∧ ∀ e ∈ (plx_del_a_lut_entry env runs2 addr).2,
        ∃ i, e = RegEvent.write 0
          (env.aLutArrayBase + (plx_get_a_lut_entry_offset env i + env.permOff)) := by
  constructor
  · unfold plx_a_lut_clear clearAllTraceSpec
    rw [clearAllLoop_eq_closed env offset env.segments_num 0]
    simp
  · intro e he
    unfold plx_del_a_lut_entry at he
    by_cases hge : addr ≥ env.segments_num * env.segment_size
    · rw [if_pos hge] at he
      simp at he
    · rw [if_neg hge] at he
      rcases hdel : plx_alm_del_entry runs2 (addr / env.segment_size)
        with ⟨runs', st, n⟩
      rw [hdel] at he
      change e ∈ (if n ≠ 0 then (runs', clearPermLoop env st n)
        else (runs', [])).2 at he
      by_cases hn : n ≠ 0
      · rw [if_pos hn] at he
        exact clearPermLoop_mem env n st e he
      · rw [if_neg hn] at he
        simp at he

/-- Witness for C5: deleting the last reference of the run at segments
1-2 emits a permission-field zero write at offset 12, which the theorem
certifies as a permission-only write. -/
theorem plx_clear_permission_only_witness :
    ∃ i, RegEvent.write 0 12 = RegEvent.write 0
      ((⟨2, 8, 8, 4, 0, 1, 2, 0, 4096, 4⟩ : PlxEnv).aLutArrayBase
        + (plx_get_a_lut_entry_offset ⟨2, 8, 8, 4, 0, 1, 2, 0, 4096, 4⟩ i
          + (⟨2, 8, 8, 4, 0, 1, 2, 0, 4096, 4⟩ : PlxEnv).permOff)) :=
  (plx_clear_permission_only ⟨2, 8, 8, 4, 0, 1, 2, 0, 4096, 4⟩ 0 []
    [⟨1, 2, 4096, 1⟩] 6144).2 (RegEvent.write 0 12) (by decide)
